import Mathlib

/-!
# Verification of the fst store engine against its specification

Shallow embedding of `FstStore::fstWrite` / `FstStore::fstRead` /
`ReadHeader` / `SetKeyIndex` (interface/fststore.cpp), the DOUBLE_64 codec
dispatch (double/double_v9.cpp) and the column type model (ifstcolumn.h).
Parts of the engine whose sources are not part of this snapshot (the block
streamer, the compression strategy classes, the per-type codecs other than
double, and the on-disk constants in fstdefines.h) are modelled from the
specification; each such definition carries a doc comment starting with
`Modelled from the spec:`.
-/

/-- The domain error kinds of the store engine (spec section 7 /
runtime_error messages in fststore.cpp). -/
inductive FstError
  | cannotOpenRead
  | cannotOpenWrite
  | cannotOpenFile
  | nonFstFile
  | updateRequired
  | damagedHeader
  | damagedChunkIndex
  | noData
  | emptyTable
  | columnNotFound
  | columnOutOfRange
  | negativeRow
  | rowOutOfRange
  | badRange
  | unknownType
  | writeFailed
  deriving DecidableEq, Repr

-- Decidable equality of read results (`Except` carrying our error type).
deriving instance DecidableEq for Except

/-- Linear search for the first position of `k` in a list, as in the inner
loop of `SetKeyIndex` (fststore.cpp:192-201) and the column-name search of
`fstRead` (fststore.cpp:795-806). Returns the first matching index. -/
def findFirst {α : Type} [DecidableEq α] (k : α) : List α → Option Nat
  | [] => none
  | c :: cs => if c = k then some 0 else (findFirst k cs).map (· + 1)

/-- Embedding of `SetKeyIndex` (fststore.cpp:188-206): for each key position
in order, linear-search the selection; append the found selection index, or
stop the whole loop at the first key that is absent. -/
def setKeyIndex : List Int → List Int → List Nat
  | [], _ => []
  | k :: ks, colIndex =>
    match findFirst k colIndex with
    | some j => j :: setKeyIndex ks colIndex
    | none => []

/-- The key-remap rule as the spec words it (spec section 4.7): emit the
longest prefix of keys that survived the selection, each mapped to its
first position in the selection. -/
def keyRemapSpec (keys cols : List Int) : List Nat :=
  (keys.takeWhile (fun k => cols.contains k)).map (fun k => cols.indexOf k)

/-- Embedding of the row-range resolution of `FstStore::fstRead`
(fststore.cpp:824-863): `firstRow = startRow - 1`; negative or too-large
`firstRow` fails; an explicit `endRow` must exceed `firstRow`; the returned
pair is `(firstRow, length)`. -/
def resolveRowRange (startRow endRow : Int) (nrOfRows : Nat) :
    Except FstError (Int × Int) :=
  let firstRow := startRow - 1
  if firstRow ≥ (nrOfRows : Int) ∨ firstRow < 0 then
    if firstRow < 0 then .error .negativeRow else .error .rowOutOfRange
  else
    if endRow ≠ -1 then
      if endRow ≤ firstRow then .error .badRange
      else .ok (firstRow, min (endRow - firstRow) ((nrOfRows : Int) - firstRow))
    else .ok (firstRow, (nrOfRows : Int) - firstRow)

/-- Little-endian encoding of `n` into `w` bytes. -/
def natToLE : Nat → Nat → List Nat
  | 0, _ => []
  | w + 1, n => n % 256 :: natToLE w (n / 256)

/-- Little-endian decoding of a byte list. -/
def leToNat : List Nat → Nat
  | [] => 0
  | b :: bs => b + 256 * leToNat bs

/-- Two's-complement little-endian encoding of a signed integer into `w`
bytes, as a `memcpy` of a `w`-byte machine integer produces. -/
def intToLE (w : Nat) (i : Int) : List Nat :=
  natToLE w (i % (2 ^ (8 * w))).toNat

/-- Two's-complement little-endian decoding of `w` bytes. -/
def leToInt (w : Nat) (bs : List Nat) : Int :=
  let u := leToNat bs
  if u < 2 ^ (8 * w - 1) then (u : Int) else (u : Int) - 2 ^ (8 * w)

/-- Fuel-driven splitting of a list into consecutive chunks of `k`
elements (the final chunk may be shorter); `fuel ≥ l.length` makes it
total for `k ≥ 1`. -/
def chunksGo {α : Type} (k : Nat) : Nat → List α → List (List α)
  | 0, _ => []
  | _ + 1, [] => []
  | fuel + 1, l => l.take k :: chunksGo k fuel (l.drop k)

/-- Split a list into consecutive chunks of `k` elements; the final chunk
may be shorter. -/
def chunks {α : Type} (k : Nat) (l : List α) : List (List α) :=
  chunksGo k l.length l

/-- Split a flat buffer into pieces of the given lengths (the character
codec reconstructing elements from its size-meta table). -/
def splitByLens : List Nat → List Nat → List (List Nat)
  | [], _ => []
  | n :: ns, buf => buf.take n :: splitByLens ns (buf.drop n)

/-- Modelled from the spec: BOOL_2 packs four 2-bit states per byte
(00 = false, 01 = true, 10 = NA); logical_v10.cpp is not part of this
source snapshot. `encB2` packs one group of at most four states. -/
def encB2 (g : List Nat) : Nat := g.foldr (fun s acc => s + 4 * acc) 0

/-- Pack a vector of 2-bit states, four per byte. -/
def packB2 (l : List Nat) : List Nat := (chunks 4 l).map encB2

/-- The four 2-bit states stored in one byte. -/
def decodeB2 (b : Nat) : List Nat := [b % 4, b / 4 % 4, b / 16 % 4, b / 64 % 4]

/-- Unpack `n` 2-bit states from packed bytes. -/
def unpackB2 (n : Nat) (bytes : List Nat) : List Nat :=
  ((bytes.map decodeB2).flatten).take n

/-- Map with the element index passed along, starting at `i`. -/
def mapIdxFrom {α β : Type} (f : Nat → α → β) : Nat → List α → List β
  | _, [] => []
  | i, b :: bs => f i b :: mapIdxFrom f (i + 1) bs

/-- Monadic map over `Except`, failing at the first error (the shape of
the early-throwing loops in fststore.cpp). -/
def mapExcept {α β : Type} (g : α → Except FstError β) :
    List α → Except FstError (List β)
  | [] => .ok []
  | x :: xs => do
    let y ← g x
    let ys ← mapExcept g xs
    pure (y :: ys)

/-- Compression algorithm identifiers persisted per block. -/
inductive CompAlgo
  | NONE
  | LZ4
  | ZSTD
  deriving DecidableEq

/-- Modelled from the spec: an external byte-stream compressor exposed as
`Compress(in)` / `Decompress(in, expected_size)`; LZ4 and ZSTD themselves
are external collaborators, only this contract is fixed. -/
structure Codec where
  comp : List Nat → List Nat
  decomp : List Nat → Nat → List Nat

/-- The contract a compression primitive satisfies: decompressing with the
original size restores the input. -/
def CodecOk (c : Codec) : Prop :=
  ∀ bs : List Nat, c.decomp (c.comp bs) bs.length = bs

/-- The identity codec, a trivial instance of the compression contract. -/
def idCodec : Codec := { comp := fun bs => bs, decomp := fun bs _ => bs }

/-- The three stream-compressor shapes constructed by the double codec
(double_v9.cpp:43-75): verbatim, linear mix of one compressor, or the
two-stage composite of two compressors, each with a percent parameter. -/
inductive StreamStrategy
  | uncompressed
  | linear (algo : CompAlgo) (lvl : Nat) (pct : Nat)
  | composite (algo1 : CompAlgo) (lvl1 : Nat) (algo2 : CompAlgo) (lvl2 : Nat) (pct : Nat)
  deriving DecidableEq

/-- Embedding of the compression dispatch of `fdsWriteRealVec_v9`
(double_v9.cpp:43-75): 0 selects the uncompressed streamer; 1..50 the
linear mix of LZ4 at level `2c` with parameter `2c`; 51..100 the
composite of LZ4 level 100 and ZSTD level 20 with parameter `2(c-50)`. -/
def fdsWriteRealVec_v9_strategy (compression : Nat) : StreamStrategy :=
  if compression = 0 then .uncompressed
  else if compression ≤ 50 then .linear .LZ4 (2 * compression) (2 * compression)
  else .composite .LZ4 100 .ZSTD 20 (2 * (compression - 50))

/-- Modelled from the spec: the deterministic block-index-driven selection
of the linear-mix and composite stream compressors (compressor.cpp is not
in this snapshot): block `i` is selected exactly when the running count
`i * pct / 100` gains a unit there, so the selected fraction is
`pct/100`. -/
def linearCompressedAt (pct i : Nat) : Bool :=
  decide ((i + 1) * pct / 100 ≠ i * pct / 100)

/-- Number of selected blocks among block indices `0..n`. -/
def linearCount (pct n : Nat) : Nat :=
  ((List.range n).filter (fun i => linearCompressedAt pct i)).length

/-- The per-block decision of a stream compressor: first-stage algorithm
and level, plus an optional second stage. -/
structure BlockDecision where
  algo1 : CompAlgo
  lvl1 : Nat
  stage2 : Option (CompAlgo × Nat)
  deriving DecidableEq

/-- Modelled from the spec (section 4.3): the uncompressed streamer writes
every block verbatim with identifier NONE; the linear mix alternates NONE
and its single compressor; the composite applies stage 1 to every block
and adds stage 2 on the selected fraction. -/
def strategyDecision : StreamStrategy → Nat → BlockDecision
  | .uncompressed, _ => ⟨.NONE, 0, none⟩
  | .linear a lvl pct, i =>
    if linearCompressedAt pct i then ⟨a, lvl, none⟩ else ⟨.NONE, 0, none⟩
  | .composite a1 l1 a2 l2 pct, i =>
    ⟨a1, l1, if linearCompressedAt pct i then some (a2, l2) else none⟩

/-- One persisted block: algorithm identifiers, the raw size, the
intermediate size after stage 1, and the stored payload. Modelled from the
spec: per-block metadata records sizes and the algorithm, so decompression
dispatches on the stored identifier (blockstreamer_v2.cpp is not in this
snapshot). -/
structure Block where
  algo1 : CompAlgo
  stage2 : Option CompAlgo
  rawLen : Nat
  interLen : Nat
  payload : List Nat
  deriving DecidableEq

/-- The codec selected by an algorithm identifier (NONE moves bytes
verbatim). -/
def codecApp (lz4 zstd : Codec) : CompAlgo → Codec
  | .NONE => idCodec
  | .LZ4 => lz4
  | .ZSTD => zstd

/-- Compress one raw block according to a per-block decision. -/
def compressBlock (lz4 zstd : Codec) (d : BlockDecision) (raw : List Nat) : Block :=
  let stage1 := (codecApp lz4 zstd d.algo1).comp raw
  match d.stage2 with
  | some (a2, _) =>
    ⟨d.algo1, some a2, raw.length, stage1.length, (codecApp lz4 zstd a2).comp stage1⟩
  | none => ⟨d.algo1, none, raw.length, stage1.length, stage1⟩

/-- Decompress one stored block, dispatching on the stored identifiers. -/
def decompressBlock (lz4 zstd : Codec) (b : Block) : List Nat :=
  let stage1 :=
    match b.stage2 with
    | some a2 => (codecApp lz4 zstd a2).decomp b.payload b.interLen
    | none => b.payload
  (codecApp lz4 zstd b.algo1).decomp stage1 b.rawLen

/-- A column's block-streamer output: the block sequence plus the appended
column annotation blob. -/
structure BlockStream where
  blocks : List Block
  annot : List Nat
  deriving DecidableEq

/-- Modelled from the spec: the block-streamer write contract (section
4.3): split the element buffer into fixed-size blocks, compress each per
the strategy's per-block decision, and append the column annotation. -/
def writeStream (lz4 zstd : Codec) (strat : StreamStrategy) (blockBytes : Nat)
    (raw : List Nat) (annot : List Nat) : BlockStream :=
  { blocks := mapIdxFrom
      (fun i b => compressBlock lz4 zstd (strategyDecision strat i) b) 0
      (chunks blockBytes raw)
    annot := annot }

/-- Modelled from the spec: the block-streamer read at full range
decompresses every block and concatenates the results. -/
def readStreamAll (lz4 zstd : Codec) (bs : BlockStream) : List Nat :=
  (bs.blocks.map (decompressBlock lz4 zstd)).flatten

/-- The per-type column content (ifstcolumn.h): doubles are carried as
their IEEE-754 bit patterns (the codec moves raw bytes and never
interprets them), BOOL_2 as 2-bit states (0 = false, 1 = true, 2 = NA),
factors as a level vector (0 = NA) plus level names, characters as byte
strings with the persisted encoding tag. -/
inductive ColumnData
  | int32 (vals : List Int)
  | dbl (vals : List Nat)
  | bool2 (vals : List Nat)
  | int64 (vals : List Int)
  | byteV (vals : List Nat)
  | chr (enc : Nat) (vals : List (List Nat))
  | fact (enc : Nat) (levels : List (List Nat)) (vals : List Nat)
  deriving DecidableEq

/-- One column as the host table exposes it on write: content, annotation
bytes, attribute, scale. -/
structure FstColumn where
  data : ColumnData
  annot : List Nat
  attrib : Nat
  scale : Int
  deriving DecidableEq

/-- A table (spec section 3). -/
structure FstTable where
  nrOfRows : Nat
  keyColPos : List Int
  cols : List FstColumn
  deriving DecidableEq

/-- Per-column on-disk payload: fixed-width types go through the block
streamer; the character codec stores a size-meta table, the packed bytes
and the encoding tag (modelled from the spec; character_v6.cpp is not in
this snapshot); a factor column stores the level-names character payload
followed by the level vector written as INT_32 (factor_v7.h). -/
inductive ColPayload
  | fixedP (bs : BlockStream)
  | chrP (enc : Nat) (meta : List Nat) (buf : List Nat)
  | factP (enc : Nat) (meta : List Nat) (buf : List Nat) (bs : BlockStream)
  deriving DecidableEq

/-- The annotation bytes a written column payload carries on disk: the
block-streamer payloads of the fixed-width types and of the factor level
vector carry the annotation blob; a character payload carries none, since
`fstWrite` never hands the character codec an annotation
(fststore.cpp:422). -/
def payloadAnn : ColPayload → List Nat
  | .fixedP bs => bs.annot
  | .chrP _ _ _ => []
  | .factP _ _ _ bs => bs.annot

/-- The parsed content of a written fst file that the claims observe. -/
structure FstFile where
  nrOfRows : Nat
  keyColPos : List Int
  colMeta : List (Nat × Nat × Int)
  payloads : List ColPayload
  deriving DecidableEq

/-- Modelled from the spec: per-type elements per block (fstdefines.h is
not in this snapshot; the concrete value affects no claim). -/
def BLOCKSIZE_INT : Nat := 4096

/-- Modelled from the spec: elements per block for DOUBLE_64. -/
def BLOCKSIZE_REAL : Nat := 2048

/-- Modelled from the spec: bytes per block for BOOL_2. -/
def BLOCKSIZE_LOGICAL : Nat := 4096

/-- Modelled from the spec: elements per block for INT_64. -/
def BLOCKSIZE_INT64 : Nat := 2048

/-- Modelled from the spec: bytes per block for BYTE. -/
def BLOCKSIZE_BYTE : Nat := 4096

/-- Embedding of the per-column write dispatch of `FstStore::fstWrite`
(fststore.cpp:416-483): returns the persisted `colTypes` code and the
column payload. The character write passes no annotation
(fststore.cpp:422); the factor write stores the annotation with its
integer sub-stream (fststore.cpp:432); the fixed-width codecs hand the
annotation to the block streamer. -/
def writeColumn (lz4 zstd : Codec) (compress : Nat) (c : FstColumn) :
    Nat × ColPayload :=
  let strat := fdsWriteRealVec_v9_strategy compress
  match c.data with
  | .chr enc vals =>
    (6, .chrP enc ((vals.map (fun s => natToLE 4 s.length)).flatten) vals.flatten)
  | .fact enc levels vals =>
    (7, .factP enc ((levels.map (fun s => natToLE 4 s.length)).flatten) levels.flatten
      (writeStream lz4 zstd strat (4 * BLOCKSIZE_INT)
        ((vals.map (fun v => intToLE 4 (Int.ofNat v))).flatten) c.annot))
  | .int32 vals =>
    (8, .fixedP (writeStream lz4 zstd strat (4 * BLOCKSIZE_INT)
      ((vals.map (intToLE 4)).flatten) c.annot))
  | .dbl vals =>
    (9, .fixedP (writeStream lz4 zstd strat (8 * BLOCKSIZE_REAL)
      ((vals.map (natToLE 8)).flatten) c.annot))
  | .bool2 vals =>
    (10, .fixedP (writeStream lz4 zstd strat BLOCKSIZE_LOGICAL
      (packB2 vals) c.annot))
  | .int64 vals =>
    (11, .fixedP (writeStream lz4 zstd strat (8 * BLOCKSIZE_INT64)
      ((vals.map (intToLE 8)).flatten) c.annot))
  | .byteV vals =>
    (12, .fixedP (writeStream lz4 zstd strat BLOCKSIZE_BYTE vals c.annot))

/-- Embedding of the per-column read dispatch of `FstStore::fstRead`
(fststore.cpp:885-967): decode the payload selected by the stored type
code. The annotation is surfaced only for INT_32 (fststore.cpp:901-903)
and DOUBLE_64 (fststore.cpp:912-914); the scale reaches the column
factory only for INT_32, DOUBLE_64 and INT_64. -/
def readColumn (lz4 zstd : Codec) (nrOfRows code attrib : Nat) (scale : Int)
    (p : ColPayload) : Except FstError FstColumn :=
  match code, p with
  | 6, .chrP enc meta buf =>
    .ok ⟨.chr enc (splitByLens ((chunks 4 meta).map leToNat) buf), [], attrib, 0⟩
  | 7, .factP enc meta buf bs =>
    .ok ⟨.fact enc (splitByLens ((chunks 4 meta).map leToNat) buf)
      (((chunks 4 (readStreamAll lz4 zstd bs)).map (leToInt 4)).map Int.toNat),
      [], attrib, 0⟩
  | 8, .fixedP bs =>
    .ok ⟨.int32 ((chunks 4 (readStreamAll lz4 zstd bs)).map (leToInt 4)),
      bs.annot, attrib, scale⟩
  | 9, .fixedP bs =>
    .ok ⟨.dbl ((chunks 8 (readStreamAll lz4 zstd bs)).map leToNat),
      bs.annot, attrib, scale⟩
  | 10, .fixedP bs =>
    .ok ⟨.bool2 (unpackB2 nrOfRows (readStreamAll lz4 zstd bs)), [], attrib, 0⟩
  | 11, .fixedP bs =>
    .ok ⟨.int64 ((chunks 8 (readStreamAll lz4 zstd bs)).map (leToInt 8)),
      [], attrib, scale⟩
  | 12, .fixedP bs =>
    .ok ⟨.byteV (readStreamAll lz4 zstd bs), [], attrib, 0⟩
  | _, _ => .error .unknownType

/-- Modelled from the spec: the reader materializes only rows
`[firstRow, firstRow + length)` of each column (the block streamer copies
just the needed sub-range of the decompressed blocks). -/
def sliceColumn (firstRow length : Nat) (c : FstColumn) : FstColumn :=
  { c with data :=
      match c.data with
      | .int32 v => .int32 ((v.drop firstRow).take length)
      | .dbl v => .dbl ((v.drop firstRow).take length)
      | .bool2 v => .bool2 ((v.drop firstRow).take length)
      | .int64 v => .int64 ((v.drop firstRow).take length)
      | .byteV v => .byteV ((v.drop firstRow).take length)
      | .chr e v => .chr e ((v.drop firstRow).take length)
      | .fact e ls v => .fact e ls ((v.drop firstRow).take length) }

/-- Embedding of the write path of `FstStore::fstWrite`
(fststore.cpp:214-514) at table-content level: the two emptiness guards
(fststore.cpp:220-223 and 328-332), then the key index, the per-column
type codes with attribute and scale, and the per-column payloads. -/
def fstWriteModel (lz4 zstd : Codec) (t : FstTable) (compress : Nat) :
    Except FstError FstFile :=
  if t.cols.length = 0 then .error .emptyTable
  else if t.nrOfRows = 0 then .error .noData
  else .ok
    { nrOfRows := t.nrOfRows
      keyColPos := t.keyColPos
      colMeta := t.cols.map (fun c =>
        ((writeColumn lz4 zstd compress c).1, c.attrib, c.scale))
      payloads := t.cols.map (fun c => (writeColumn lz4 zstd compress c).2) }

/-- Embedding of the read path of `FstStore::fstRead`
(fststore.cpp:622-988) for a parsed file, with no column selection (all
columns in on-disk order): resolve the 1-based row range, decode and slice
every column, and compute the key index via `SetKeyIndex` over the
identity selection (fststore.cpp:974-975). -/
def fstReadModel (lz4 zstd : Codec) (f : FstFile) (startRow endRow : Int) :
    Except FstError FstTable := do
  let r ← resolveRowRange startRow endRow f.nrOfRows
  let cols ← mapExcept
    (fun mp =>
      (readColumn lz4 zstd f.nrOfRows mp.1.1 mp.1.2.1 mp.1.2.2 mp.2).map
        (sliceColumn r.1.toNat r.2.toNat))
    (f.colMeta.zip f.payloads)
  .ok { nrOfRows := r.2.toNat
        keyColPos := (setKeyIndex f.keyColPos
          ((List.range f.colMeta.length).map Int.ofNat)).map Int.ofNat
        cols := cols }

/-- Write a table and read it back in full (`startRow = 1`,
`endRow = -1`, no column selection). -/
def roundTripModel (lz4 zstd : Codec) (t : FstTable) (compress : Nat) :
    Except FstError FstTable := do
  let f ← fstWriteModel lz4 zstd t compress
  fstReadModel lz4 zstd f 1 (-1)

/-- What `fstRead` hands back for one column: the annotation survives only
for INT_32 and DOUBLE_64 columns, and the scale only for INT_32, DOUBLE_64
and INT_64 columns (fststore.cpp:885-957). -/
def stripCol (c : FstColumn) : FstColumn :=
  match c.data with
  | .int32 _ => c
  | .dbl _ => c
  | .int64 _ => { c with annot := [] }
  | _ => { c with annot := [], scale := 0 }

/-- The table `fstRead` reconstructs from a full read of a written file. -/
def readBack (t : FstTable) : FstTable := { t with cols := t.cols.map stripCol }

/-- Machine-range and row-count well-formedness of one column. -/
def colWf (nrOfRows : Nat) (c : FstColumn) : Bool :=
  match c.data with
  | .int32 v => v.length = nrOfRows && v.all (fun x => decide (-(2 ^ 31) ≤ x) && decide (x < 2 ^ 31))
  | .dbl v => v.length = nrOfRows && v.all (fun x => decide (x < 2 ^ 64))
  | .bool2 v => v.length = nrOfRows && v.all (fun x => decide (x < 3))
  | .int64 v => v.length = nrOfRows && v.all (fun x => decide (-(2 ^ 63) ≤ x) && decide (x < 2 ^ 63))
  | .byteV v => v.length = nrOfRows && v.all (fun x => decide (x < 256))
  | .chr _ v => v.length = nrOfRows && v.all (fun s => decide (s.length < 2 ^ 32))
  | .fact _ ls v => v.length = nrOfRows && v.all (fun x => decide (x < 2 ^ 31))
      && ls.all (fun s => decide (s.length < 2 ^ 32))

/-- Well-formedness of a table: at least one row and one column, columns
of the right length with in-range values, key positions valid. -/
def tableWf (t : FstTable) : Bool :=
  decide (1 ≤ t.nrOfRows) && decide (1 ≤ t.cols.length)
    && t.cols.all (colWf t.nrOfRows)
    && t.keyColPos.all (fun k => decide (0 ≤ k) && decide (k < (t.cols.length : Int)))

/-- Decode the little-endian field of width `w` at byte offset `off`. -/
def readLEField (bytes : List Nat) (off w : Nat) : Nat :=
  leToNat ((bytes.drop off).take w)

/-- Size of the table header (fststore.cpp:61-70). -/
def TABLE_META_SIZE : Nat := 44

/-- Embedding of `ReadHeader` (fststore.cpp:144-185), parameterized by the
external XXH64 hash (seed folded in) and the reader's compiled
FST_VERSION: read 44 bytes (failing like the stream check when fewer are
available), check the header hash (`NonFstFile`, fststore.cpp:166-172),
then the version gate (`UpdateRequired`, fststore.cpp:175-179), then
return versionMax, nrOfCols and keyLength. -/
def ReadHeader (xxh64 : List Nat → Nat) (fstVersion : Nat) (fileBytes : List Nat) :
    Except FstError (Nat × Nat × Nat) :=
  if fileBytes.length < TABLE_META_SIZE then .error .cannotOpenRead
  else
    let tableMeta := fileBytes.take TABLE_META_SIZE
    if xxh64 (tableMeta.drop 8) ≠ readLEField tableMeta 0 8 then .error .nonFstFile
    else if readLEField tableMeta 24 4 > fstVersion then .error .updateRequired
    else .ok (readLEField tableMeta 24 4, readLEField tableMeta 28 4,
      readLEField tableMeta 40 4)

/-- A concrete stand-in for the external XXH64 hash in closed examples. -/
def sumHash (l : List Nat) : Nat := l.foldl (· + ·) 0

/-- A 44-byte table header whose FST_VERSION_MAX field (offset 24) is 9
and whose hash field does not match `sumHash` of the remaining bytes. -/
def c4BadFile : List Nat := List.replicate 24 0 ++ [9] ++ List.replicate 19 0

/-- A 44-byte table header whose FST_VERSION_MAX field is 9 and whose hash
field equals `sumHash` of the remaining bytes. -/
def c4NewerFile : List Nat :=
  [9] ++ List.replicate 23 0 ++ [9] ++ List.replicate 19 0

/-- The chunk-index record fields of the `chunkIndex` heap buffer
(fststore.cpp:358-370); `chunkPos` and `chunkRows` have 4 slots each. -/
structure ChunkIndexBuffer where
  version : Nat
  flags : Nat
  free5 : Nat
  nrOfChunkSlots : Nat
  free6 : List Nat
  chunkPos : List Nat
  chunkRows : List Nat
  deriving DecidableEq

/-- Embedding of the chunk-index field assignments of `FstStore::fstWrite`
(fststore.cpp:383-388 set version, flags, free bytes, nrOfChunkSlots = 4
and slot 0 of chunkRows; fststore.cpp:486 sets slot 0 of chunkPos).
`init` is the buffer as freshly allocated by `new char[]`, with
unspecified contents; the remaining slots are never assigned. -/
def fstWriteChunkIndex (ver : Nat) (init : ChunkIndexBuffer)
    (nrOfRows chunkPosVal : Nat) : ChunkIndexBuffer :=
  { init with
    version := ver
    flags := 0
    free5 := 0
    nrOfChunkSlots := 4
    free6 := [0, 0, 0]
    chunkRows := init.chunkRows.set 0 nrOfRows
    chunkPos := init.chunkPos.set 0 chunkPosVal }

/-- One possible content of the freshly allocated (uninitialized)
chunk-index buffer: every byte 0xAB, so every slot reads as 171. -/
def hotGarbageBuffer : ChunkIndexBuffer :=
  ⟨171, 171, 171, 171, [171, 171, 171], [171, 171, 171, 171], [171, 171, 171, 171]⟩

/-- File operations of the write path. -/
inductive FileOp
  | openW
  | fwrite (pos len : Nat)
  | fseek (pos : Nat)
  | fclose
  deriving DecidableEq

/-- The observable outcome of a write: the file-operation trace, the
error if any, and the offset bookkeeping of fstWrite. -/
structure WriteRun where
  ops : List FileOp
  err : Option FstError
  positionData : List Nat
  chunkPos : Nat
  chunkIndexPos : Nat
  deriving DecidableEq

/-- Size of the chunk-index record (fststore.cpp:103-112: 8+4+4+8+2+6+32+32
bytes; `p_chunkDataHash` sits at chunkIndex[96]). -/
def CHUNK_INDEX_SIZE : Nat := 96

/-- Size of the data-chunk header without position data
(fststore.cpp:114-120: 8+4+4+8 bytes; `positionData` sits at
chunkIndex[120] = 96 + 24). -/
def DATA_INDEX_SIZE : Nat := 24

/-- Size of the chunkset header without the per-column tables
(fststore.cpp:77-93). -/
def CHUNKSET_HEADER_SIZE : Nat := 76

/-- Starting file offsets of consecutively written payloads of the given
sizes, beginning at `base` (`positionData[colNr] = myfile.tellp()`,
fststore.cpp:404). -/
def offsets (base : Nat) : List Nat → List Nat
  | [] => []
  | s :: ss => base :: offsets (base + s) ss

/-- Embedding of the file-position and file-operation structure of
`FstStore::fstWrite` (fststore.cpp:214-514): the emptiness guards fire
before the file is opened (fststore.cpp:220-223 and 328-332 vs the open
at 339); then the metadata block, the column names, the chunk-index
placeholder and the column payloads are written sequentially, and two
seek-backs patch offset 0 and offset `chunkPos - CHUNK_INDEX_SIZE`
(fststore.cpp:492-498). `colNamesSize` and `colSizes` are the byte sizes
the codecs produce. -/
def fstWriteRun (nrOfCols nrOfRows keyLength colNamesSize : Nat)
    (colSizes : List Nat) : WriteRun :=
  if nrOfCols = 0 then ⟨[], some .emptyTable, [], 0, 0⟩
  else if nrOfRows = 0 then ⟨[], some .noData, [], 0, 0⟩
  else
    let keyIndexHeaderSize := if keyLength = 0 then 0 else 4 * (keyLength + 2)
    let metaDataSize := TABLE_META_SIZE + keyIndexHeaderSize +
      (CHUNKSET_HEADER_SIZE + 8 * nrOfCols) + 24
    let chunkIndexSize := CHUNK_INDEX_SIZE + DATA_INDEX_SIZE + 8 * nrOfCols
    let chunkIndexPos := metaDataSize + colNamesSize
    let posData := offsets (chunkIndexPos + chunkIndexSize) colSizes
    let chunkPos := posData.getD 0 0 - 8 * nrOfCols - DATA_INDEX_SIZE
    { ops := [.openW, .fwrite 0 metaDataSize, .fwrite metaDataSize colNamesSize,
        .fwrite chunkIndexPos chunkIndexSize] ++
        (posData.zip colSizes).map (fun p => .fwrite p.1 p.2) ++
        [.fseek 0, .fwrite 0 metaDataSize, .fseek (chunkPos - CHUNK_INDEX_SIZE),
         .fwrite (chunkPos - CHUNK_INDEX_SIZE) chunkIndexSize, .fclose]
      err := none
      positionData := posData
      chunkPos := chunkPos
      chunkIndexPos := chunkIndexPos }

/-- Embedding of the column-selection resolution of `FstStore::fstRead`
(fststore.cpp:779-821): a null selection selects all columns in on-disk
order; otherwise each requested name is resolved by linear search over
the on-disk names (first exact match wins), throwing `ColumnNotFound` at
the first absent name. -/
def resolveColSelection (colNames : List String) (sel : Option (List String)) :
    Except FstError (List Nat) :=
  match sel with
  | none => .ok (List.range colNames.length)
  | some req => mapExcept (fun s =>
      match findFirst s colNames with
      | some j => .ok j
      | none => .error .columnNotFound) req

/-- Embedding of the `selectedCols` population (fststore.cpp:977-983):
the chosen column names in selection order. -/
def selectedColNames (colNames : List String) (colIndex : List Nat) : List String :=
  colIndex.map (fun j => colNames.getD j "")

/-- A concrete well-formed table exercising every column type, the NA
markers (INT_MIN, INT64_MIN, BOOL_2 state 10, factor level 0), a NaN bit
pattern, two keys, and a nonempty annotation plus scale on the INT_32
column. -/
def tSample : FstTable :=
  { nrOfRows := 2
    keyColPos := [0, 2]
    cols :=
      [ ⟨.int32 [1, -(2 ^ 31)], [116, 122], 5, 3⟩,
        ⟨.dbl [9221120237041090560, 0], [], 11, 0⟩,
        ⟨.chr 1 [[104, 105], []], [], 2, 0⟩,
        ⟨.bool2 [2, 1], [], 17, 0⟩,
        ⟨.fact 0 [[108, 111], [104, 105]] [0, 2], [], 3, 0⟩,
        ⟨.int64 [-(2 ^ 63), 7], [], 18, 0⟩,
        ⟨.byteV [255, 0], [], 20, 0⟩ ] }

/-- A one-row, one-column table with a nonempty annotation on an INT_64
column. -/
def tInt64Annot : FstTable :=
  { nrOfRows := 1, keyColPos := [], cols := [⟨.int64 [5], [42], 18, 0⟩] }

/-- A three-row single-column table for the row-range scenarios. -/
def tRows : FstTable :=
  { nrOfRows := 3, keyColPos := [], cols := [⟨.int32 [10, 20, 30], [], 5, 0⟩] }

theorem findFirst_eq_indexOf {α : Type} [DecidableEq α] (k : α) (l : List α) :
    findFirst k l = if k ∈ l then some (l.indexOf k) else none := by
  induction l with
  | nil => simp [findFirst]
  | cons c cs ih =>
    by_cases h : c = k
    · subst h
      simp [findFirst, List.indexOf_cons_self]
    · rw [findFirst, if_neg h, ih, List.indexOf_cons_ne _ h]
      by_cases hm : k ∈ cs
      · rw [if_pos hm, if_pos (List.mem_cons_of_mem c hm)]
        rfl
      · rw [if_neg hm, if_neg (by
          intro hh
          rcases List.mem_cons.mp hh with h1 | h2
          · exact h h1.symm
          · exact hm h2)]
        rfl

theorem setKeyIndex_eq_keyRemapSpec (keys cols : List Int) :
    setKeyIndex keys cols = keyRemapSpec keys cols := by
  induction keys with
  | nil => simp [setKeyIndex, keyRemapSpec]
  | cons k ks ih =>
    by_cases h : k ∈ cols
    · have hc : cols.contains k = true := by simpa using h
      simp [setKeyIndex, findFirst_eq_indexOf, keyRemapSpec, List.takeWhile_cons, h, hc, ih]
    · have hc : cols.contains k = false := by simpa using h
      simp [setKeyIndex, findFirst_eq_indexOf, keyRemapSpec, List.takeWhile_cons, h, hc]

theorem natToLE_length (w n : Nat) : (natToLE w n).length = w := by
  induction w generalizing n with
  | zero => rfl
  | succ w ih => simp [natToLE, ih]

theorem leToNat_natToLE (w n : Nat) (h : n < 256 ^ w) :
    leToNat (natToLE w n) = n := by
  induction w generalizing n with
  | zero =>
    simp only [pow_zero, Nat.lt_one_iff] at h
    subst h
    rfl
  | succ w ih =>
    have hdiv : n / 256 < 256 ^ w := by
      rw [Nat.div_lt_iff_lt_mul (by norm_num)]
      calc n < 256 ^ (w + 1) := h
        _ = 256 ^ w * 256 := by rw [pow_succ]
    simp only [natToLE, leToNat, ih (n / 256) hdiv]
    omega

theorem chunksGo_cons {α : Type} (k fuel : Nat) (l : List α) (hne : l ≠ []) :
    chunksGo k (fuel + 1) l = l.take k :: chunksGo k fuel (l.drop k) := by
  cases l with
  | nil => exact absurd rfl hne
  | cons x xs => rfl

theorem chunksGo_flatten {α : Type} (k : Nat) (hk : k ≠ 0) :
    ∀ (fuel : Nat) (l : List α), l.length ≤ fuel →
      (chunksGo k fuel l).flatten = l := by
  intro fuel
  induction fuel with
  | zero =>
    intro l hl
    have : l = [] := List.length_eq_zero.mp (Nat.le_zero.mp hl)
    subst this
    rfl
  | succ fuel ih =>
    intro l hl
    cases l with
    | nil => rfl
    | cons x xs =>
      rw [chunksGo_cons k fuel _ (by simp), List.flatten_cons,
        ih _ (by simp only [List.length_drop, List.length_cons] at *; omega),
        List.take_append_drop]

theorem chunks_flatten {α : Type} (k : Nat) (hk : k ≠ 0) (l : List α) :
    (chunks k l).flatten = l :=
  chunksGo_flatten k hk l.length l le_rfl

theorem chunksGo_flatten_uniform {α : Type} (k : Nat) (hk : k ≠ 0) :
    ∀ (ls : List (List α)) (fuel : Nat), ls.flatten.length ≤ fuel →
      (∀ x ∈ ls, x.length = k) → chunksGo k fuel ls.flatten = ls := by
  intro ls
  induction ls with
  | nil =>
    intro fuel _ _
    cases fuel <;> rfl
  | cons x xs ih =>
    intro fuel hf hu
    have hx : x.length = k := hu x (by simp)
    have hxne : x ≠ [] := by
      intro h
      subst h
      simp at hx
      exact hk hx.symm
    have hne : (x :: xs).flatten ≠ [] := by
      simp only [List.flatten_cons]
      intro h
      exact hxne (List.append_eq_nil.mp h).1
    cases fuel with
    | zero =>
      exfalso
      have := List.length_eq_zero.mp (Nat.le_zero.mp hf)
      exact hne this
    | succ fuel =>
      rw [List.flatten_cons] at hf ⊢
      rw [chunksGo_cons k fuel _ (by
        intro h
        exact hxne (List.append_eq_nil.mp h).1)]
      rw [List.take_left' hx, List.drop_left' hx]
      congr 1
      apply ih
      · simp only [List.flatten_cons, List.length_append] at hf
        omega
      · intro y hy
        exact hu y (by simp [hy])

theorem chunks_flatten_uniform {α : Type} (k : Nat) (hk : k ≠ 0)
    (ls : List (List α)) (hu : ∀ x ∈ ls, x.length = k) :
    chunks k ls.flatten = ls :=
  chunksGo_flatten_uniform k hk ls ls.flatten.length le_rfl hu

theorem splitByLens_flatten (ls : List (List Nat)) :
    splitByLens (ls.map List.length) ls.flatten = ls := by
  induction ls with
  | nil => rfl
  | cons x xs ih =>
    simp only [List.map_cons, List.flatten_cons, splitByLens]
    rw [List.take_left' rfl, List.drop_left' rfl, ih]

theorem leToInt_intToLE (w : Nat) (i : Int) (hw : 1 ≤ w)
    (h1 : -(2 ^ (8 * w - 1)) ≤ i) (h2 : i < 2 ^ (8 * w - 1)) :
    leToInt w (intToLE w i) = i := by
  have h8 : 8 * w = (8 * w - 1) + 1 := by omega
  have hdouble : (2 : Int) ^ (8 * w) = 2 * 2 ^ (8 * w - 1) := by
    conv_lhs => rw [h8]
    rw [pow_succ]
    ring
  have hdoubleN : (2 : Nat) ^ (8 * w) = 2 * 2 ^ (8 * w - 1) := by
    conv_lhs => rw [h8]
    rw [pow_succ]
    ring
  have hP0 : (0 : Int) < 2 ^ (8 * w - 1) := by positivity
  have hcastP : ((2 ^ (8 * w - 1) : Nat) : Int) = 2 ^ (8 * w - 1) := by push_cast; ring
  have hcast2P : ((2 ^ (8 * w) : Nat) : Int) = 2 ^ (8 * w) := by push_cast; ring
  have h256 : (256 : Nat) ^ w = 2 ^ (8 * w) := by
    rw [show (256 : Nat) = 2 ^ 8 by norm_num, ← pow_mul]
  set u := (i % 2 ^ (8 * w)).toNat with hu
  have hmod : i % 2 ^ (8 * w) = if 0 ≤ i then i else i + 2 ^ (8 * w) := by
    split
    · next hpos =>
      exact Int.emod_eq_of_lt hpos (by omega)
    · next hneg =>
      rw [show i % 2 ^ (8 * w) = (i + 2 ^ (8 * w)) % 2 ^ (8 * w) by
        conv_lhs => rw [← Int.add_mul_emod_self_left (c := 1)]
        ring_nf]
      exact Int.emod_eq_of_lt (by omega) (by omega)
  have huI : (u : Int) = if 0 ≤ i then i else i + 2 ^ (8 * w) := by
    rw [hu, hmod]
    split
    · next hpos => exact Int.toNat_of_nonneg hpos
    · next hneg => exact Int.toNat_of_nonneg (by omega)
  have huLt : u < 256 ^ w := by
    have : (u : Int) < ((256 ^ w : Nat) : Int) := by
      rw [huI]
      push_cast [h256, hcast2P]
      split <;> omega
    exact_mod_cast this
  rw [intToLE, leToInt, ← hu, leToNat_natToLE w u huLt]
  by_cases hpos : 0 ≤ i
  · have hlt : u < 2 ^ (8 * w - 1) := by
      have : (u : Int) < ((2 ^ (8 * w - 1) : Nat) : Int) := by
        rw [huI, if_pos hpos, hcastP]
        exact h2
      exact_mod_cast this
    rw [if_pos hlt, huI, if_pos hpos]
  · have hge : ¬ u < 2 ^ (8 * w - 1) := by
      intro hlt
      have : (u : Int) < ((2 ^ (8 * w - 1) : Nat) : Int) := by exact_mod_cast hlt
      rw [huI, if_neg hpos, hcastP] at this
      omega
    rw [if_neg hge, huI, if_neg hpos]
    ring

theorem decodeB2_encB2 (g : List Nat) (hle : g.length ≤ 4) (hv : ∀ x ∈ g, x < 4) :
    decodeB2 (encB2 g) = g ++ List.replicate (4 - g.length) 0 := by
  match g with
  | [] => rfl
  | [a] =>
    have ha := hv a (by simp)
    simp only [decodeB2, encB2, List.foldr, List.length_cons, List.length_nil]
    norm_num [List.replicate]
    omega
  | [a, b] =>
    have ha := hv a (by simp)
    have hb := hv b (by simp)
    simp only [decodeB2, encB2, List.foldr, List.length_cons, List.length_nil]
    norm_num [List.replicate]
    omega
  | [a, b, c] =>
    have ha := hv a (by simp)
    have hb := hv b (by simp)
    have hc := hv c (by simp)
    simp only [decodeB2, encB2, List.foldr, List.length_cons, List.length_nil]
    norm_num [List.replicate]
    omega
  | [a, b, c, d] =>
    have ha := hv a (by simp)
    have hb := hv b (by simp)
    have hc := hv c (by simp)
    have hd := hv d (by simp)
    simp only [decodeB2, encB2, List.foldr, List.length_cons, List.length_nil]
    norm_num [List.replicate]
    omega
  | a :: b :: c :: d :: e :: rest =>
    exfalso
    simp at hle

theorem decodeB2_chunksGo :
    ∀ (fuel : Nat) (l : List Nat), l.length ≤ fuel → (∀ x ∈ l, x < 4) →
      ∃ t, (((chunksGo 4 fuel l).map encB2).map decodeB2).flatten = l ++ t := by
  intro fuel
  induction fuel with
  | zero =>
    intro l hl _
    have : l = [] := List.length_eq_zero.mp (Nat.le_zero.mp hl)
    subst this
    exact ⟨[], rfl⟩
  | succ fuel ih =>
    intro l hl hv
    cases l with
    | nil => exact ⟨[], rfl⟩
    | cons x xs =>
      rw [chunksGo_cons 4 fuel _ (by simp)]
      simp only [List.map_cons, List.flatten_cons]
      have htake := decodeB2_encB2 ((x :: xs).take 4)
        (by simp [List.length_take])
        (fun y hy => hv y (List.take_subset 4 (x :: xs) hy))
      obtain ⟨t, ht⟩ := ih ((x :: xs).drop 4)
        (by
          have hl' : xs.length + 1 ≤ fuel + 1 := by simpa using hl
          simp only [List.length_drop, List.length_cons]
          omega)
        (fun y hy => hv y (List.drop_subset 4 (x :: xs) hy))
      rw [htake, ht]
      by_cases hlen : (x :: xs).length ≤ 4
      · have hdrop : (x :: xs).drop 4 = [] := List.drop_eq_nil_of_le hlen
        refine ⟨List.replicate (4 - ((x :: xs).take 4).length) 0 ++ t, ?_⟩
        rw [List.take_of_length_le hlen, hdrop]
        simp
      · have hlen' : ¬ xs.length + 1 ≤ 4 := by simpa using hlen
        have htl : ((x :: xs).take 4).length = 4 := by
          simp only [List.length_take, List.length_cons]
          omega
        refine ⟨t, ?_⟩
        rw [htl]
        simp only [Nat.sub_self, List.replicate_zero, List.append_nil]
        rw [← List.append_assoc, List.take_append_drop]

theorem unpackB2_packB2 (l : List Nat) (hv : ∀ x ∈ l, x < 4) :
    unpackB2 l.length (packB2 l) = l := by
  obtain ⟨t, ht⟩ := decodeB2_chunksGo l.length l le_rfl hv
  rw [unpackB2, packB2, chunks, ht, List.take_left]

theorem mapIdxFrom_map {α β : Type} (f : Nat → α → β) (g : β → α)
    (hg : ∀ i b, g (f i b) = b) :
    ∀ (i : Nat) (l : List α), (mapIdxFrom f i l).map g = l := by
  intro i l
  induction l generalizing i with
  | nil => rfl
  | cons x xs ih => simp [mapIdxFrom, hg, ih]

theorem codecApp_ok (lz4 zstd : Codec) (h4 : CodecOk lz4) (hz : CodecOk zstd) :
    ∀ a : CompAlgo, CodecOk (codecApp lz4 zstd a) := by
  intro a
  cases a with
  | NONE => intro bs; rfl
  | LZ4 => exact h4
  | ZSTD => exact hz

theorem decompressBlock_compressBlock (lz4 zstd : Codec)
    (h4 : CodecOk lz4) (hz : CodecOk zstd) (d : BlockDecision) (raw : List Nat) :
    decompressBlock lz4 zstd (compressBlock lz4 zstd d raw) = raw := by
  have hall := codecApp_ok lz4 zstd h4 hz
  cases hd : d.stage2 with
  | none =>
    simp only [compressBlock, decompressBlock, hd]
    exact hall d.algo1 raw
  | some p =>
    obtain ⟨a2, lvl⟩ := p
    simp only [compressBlock, decompressBlock, hd]
    rw [hall a2 ((codecApp lz4 zstd d.algo1).comp raw)]
    exact hall d.algo1 raw

theorem readStreamAll_writeStream (lz4 zstd : Codec) (h4 : CodecOk lz4)
    (hz : CodecOk zstd) (strat : StreamStrategy) (blockBytes : Nat)
    (hb : blockBytes ≠ 0) (raw annot : List Nat) :
    readStreamAll lz4 zstd (writeStream lz4 zstd strat blockBytes raw annot) = raw := by
  rw [readStreamAll, writeStream]
  rw [mapIdxFrom_map _ (decompressBlock lz4 zstd)
    (fun i b => decompressBlock_compressBlock lz4 zstd h4 hz _ b)]
  exact chunks_flatten blockBytes hb raw

theorem writeStream_annot (lz4 zstd : Codec) (strat : StreamStrategy)
    (blockBytes : Nat) (raw annot : List Nat) :
    (writeStream lz4 zstd strat blockBytes raw annot).annot = annot := rfl

theorem mapExcept_ok {α β : Type} (g : α → Except FstError β) (h : α → β)
    (l : List α) (hl : ∀ x ∈ l, g x = .ok (h x)) :
    mapExcept g l = .ok (l.map h) := by
  induction l with
  | nil => rfl
  | cons x xs ih =>
    have hx : g x = .ok (h x) := hl x (by simp)
    have hxs : mapExcept g xs = .ok (xs.map h) :=
      ih (fun y hy => hl y (by simp [hy]))
    simp only [mapExcept, hx, hxs, List.map_cons]
    rfl


theorem decode_ints (w : Nat) (hw : 1 ≤ w) (vals : List Int)
    (hv : ∀ x ∈ vals, -(2 ^ (8 * w - 1)) ≤ x ∧ x < 2 ^ (8 * w - 1)) :
    (chunks w ((vals.map (intToLE w)).flatten)).map (leToInt w) = vals := by
  rw [chunks_flatten_uniform w (by omega) (vals.map (intToLE w)) (by
    intro x hx
    obtain ⟨v, _, rfl⟩ := List.mem_map.mp hx
    rw [intToLE, natToLE_length])]
  rw [List.map_map]
  rw [List.map_congr_left (g := id) (by
    intro v hvv
    obtain ⟨hlo, hhi⟩ := hv v hvv
    exact leToInt_intToLE w v hw hlo hhi)]
  exact List.map_id vals

theorem decode_nats (w : Nat) (hw : w ≠ 0) (vals : List Nat)
    (hv : ∀ x ∈ vals, x < 256 ^ w) :
    (chunks w ((vals.map (natToLE w)).flatten)).map leToNat = vals := by
  rw [chunks_flatten_uniform w hw (vals.map (natToLE w)) (by
    intro x hx
    obtain ⟨v, _, rfl⟩ := List.mem_map.mp hx
    rw [natToLE_length])]
  rw [List.map_map]
  rw [List.map_congr_left (g := id) (by
    intro v hvv
    exact leToNat_natToLE w v (hv v hvv))]
  exact List.map_id vals

theorem decode_strs (vals : List (List Nat)) (hv : ∀ s ∈ vals, s.length < 2 ^ 32) :
    splitByLens
      ((chunks 4 ((vals.map (fun s => natToLE 4 s.length)).flatten)).map leToNat)
      vals.flatten = vals := by
  have h1 : (vals.map (fun s => natToLE 4 s.length)) =
      (vals.map List.length).map (natToLE 4) := by
    rw [List.map_map]
    rfl
  rw [h1, decode_nats 4 (by norm_num) (vals.map List.length) (by
    intro x hx
    obtain ⟨s, hs, rfl⟩ := List.mem_map.mp hx
    have := hv s hs
    norm_num
    omega)]
  exact splitByLens_flatten vals

theorem readColumn_writeColumn (lz4 zstd : Codec) (h4 : CodecOk lz4)
    (hz : CodecOk zstd) (compress nrOfRows : Nat) (c : FstColumn)
    (hc : colWf nrOfRows c = true) :
    readColumn lz4 zstd nrOfRows (writeColumn lz4 zstd compress c).1 c.attrib
      c.scale (writeColumn lz4 zstd compress c).2 = .ok (stripCol c) := by
  obtain ⟨data, annot, attrib, scale⟩ := c
  cases data with
  | int32 v =>
    simp only [colWf, Bool.and_eq_true, List.all_eq_true, decide_eq_true_eq] at hc
    simp only [writeColumn, readColumn, stripCol]
    rw [readStreamAll_writeStream lz4 zstd h4 hz _ _ (by decide) _ _]
    rw [decode_ints 4 (by norm_num) v (by
      intro x hx
      have h := hc.2 x hx
      norm_num at h ⊢
      exact h)]
    rw [writeStream_annot]
  | dbl v =>
    simp only [colWf, Bool.and_eq_true, List.all_eq_true, decide_eq_true_eq] at hc
    simp only [writeColumn, readColumn, stripCol]
    rw [readStreamAll_writeStream lz4 zstd h4 hz _ _ (by decide) _ _]
    rw [decode_nats 8 (by norm_num) v (by
      intro x hx
      have h := hc.2 x hx
      norm_num at h ⊢
      exact h)]
    rw [writeStream_annot]
  | bool2 v =>
    simp only [colWf, Bool.and_eq_true, List.all_eq_true, decide_eq_true_eq] at hc
    simp only [writeColumn, readColumn, stripCol]
    rw [readStreamAll_writeStream lz4 zstd h4 hz _ _ (by decide) _ _]
    rw [← hc.1, unpackB2_packB2 v (by
      intro x hx
      have h := hc.2 x hx
      omega)]
  | int64 v =>
    simp only [colWf, Bool.and_eq_true, List.all_eq_true, decide_eq_true_eq] at hc
    simp only [writeColumn, readColumn, stripCol]
    rw [readStreamAll_writeStream lz4 zstd h4 hz _ _ (by decide) _ _]
    rw [decode_ints 8 (by norm_num) v (by
      intro x hx
      have h := hc.2 x hx
      norm_num at h ⊢
      exact h)]
  | byteV v =>
    simp only [writeColumn, readColumn, stripCol]
    rw [readStreamAll_writeStream lz4 zstd h4 hz _ _ (by decide) _ _]
  | chr enc v =>
    simp only [colWf, Bool.and_eq_true, List.all_eq_true, decide_eq_true_eq] at hc
    simp only [writeColumn, readColumn, stripCol]
    rw [decode_strs v hc.2]
  | fact enc ls v =>
    simp only [colWf, Bool.and_eq_true, List.all_eq_true, decide_eq_true_eq] at hc
    simp only [writeColumn, readColumn, stripCol]
    rw [readStreamAll_writeStream lz4 zstd h4 hz _ _ (by decide) _ _]
    rw [decode_strs ls hc.2]
    have hmm : v.map (fun x => intToLE 4 (Int.ofNat x)) =
        (v.map Int.ofNat).map (intToLE 4) := by
      rw [List.map_map]
      rfl
    rw [hmm, decode_ints 4 (by norm_num) (v.map Int.ofNat) (by
      intro x hx
      obtain ⟨n, hn, rfl⟩ := List.mem_map.mp hx
      have h := hc.1.2 n hn
      norm_num at h ⊢
      omega)]
    simp [List.map_map, Function.comp_def]

theorem stripCol_data (c : FstColumn) : (stripCol c).data = c.data := by
  obtain ⟨data, annot, attrib, scale⟩ := c
  cases data <;> rfl

theorem sliceColumn_full (n : Nat) (c : FstColumn) (hc : colWf n c = true) :
    sliceColumn 0 n (stripCol c) = stripCol c := by
  obtain ⟨data, annot, attrib, scale⟩ := c
  cases data with
  | int32 v =>
    simp only [colWf, Bool.and_eq_true, decide_eq_true_eq] at hc
    simp only [stripCol, sliceColumn, List.drop_zero,
      List.take_of_length_le (le_of_eq hc.1)]
  | dbl v =>
    simp only [colWf, Bool.and_eq_true, decide_eq_true_eq] at hc
    simp only [stripCol, sliceColumn, List.drop_zero,
      List.take_of_length_le (le_of_eq hc.1)]
  | bool2 v =>
    simp only [colWf, Bool.and_eq_true, decide_eq_true_eq] at hc
    simp only [stripCol, sliceColumn, List.drop_zero,
      List.take_of_length_le (le_of_eq hc.1)]
  | int64 v =>
    simp only [colWf, Bool.and_eq_true, decide_eq_true_eq] at hc
    simp only [stripCol, sliceColumn, List.drop_zero,
      List.take_of_length_le (le_of_eq hc.1)]
  | byteV v =>
    simp only [colWf, Bool.and_eq_true, decide_eq_true_eq] at hc
    simp only [stripCol, sliceColumn, List.drop_zero,
      List.take_of_length_le (le_of_eq hc.1)]
  | chr enc v =>
    simp only [colWf, Bool.and_eq_true, decide_eq_true_eq] at hc
    simp only [stripCol, sliceColumn, List.drop_zero,
      List.take_of_length_le (le_of_eq hc.1)]
  | fact enc ls v =>
    simp only [colWf, Bool.and_eq_true, decide_eq_true_eq] at hc
    simp only [stripCol, sliceColumn, List.drop_zero,
      List.take_of_length_le (le_of_eq hc.1.1)]

theorem resolveRowRange_full (n : Nat) (h : 1 ≤ n) :
    resolveRowRange 1 (-1) n = .ok (0, (n : Int)) := by
  unfold resolveRowRange
  rw [if_neg (by
    push_neg
    constructor <;> omega)]
  norm_num

theorem findFirst_append_left {α : Type} [DecidableEq α] (k : α)
    (l m : List α) (j : Nat) (h : findFirst k l = some j) :
    findFirst k (l ++ m) = some j := by
  induction l generalizing j with
  | nil => simp [findFirst] at h
  | cons c cs ih =>
    by_cases hc : c = k
    · simp only [findFirst, if_pos hc] at h ⊢
      exact h
    · rw [List.cons_append]
      simp only [findFirst, if_neg hc] at h ⊢
      obtain ⟨j', hj', rfl⟩ := Option.map_eq_some'.mp h
      rw [ih j' hj']
      rfl

theorem findFirst_append_none {α : Type} [DecidableEq α] (k : α)
    (l m : List α) (h : findFirst k l = none) :
    findFirst k (l ++ m) = (findFirst k m).map (· + l.length) := by
  induction l with
  | nil => simp [Option.map_id']
  | cons c cs ih =>
    by_cases hc : c = k
    · simp [findFirst, if_pos hc] at h
    · have hstep : ∀ (l' : List α), findFirst k (c :: l') = (findFirst k l').map (· + 1) := by
        intro l'
        simp only [findFirst, if_neg hc]
      have h' : findFirst k cs = none := by
        rw [hstep cs, Option.map_eq_none'] at h
        exact h
      rw [List.cons_append, hstep (cs ++ m), ih h', Option.map_map, List.length_cons]
      congr 1

theorem findFirst_range (k : Int) (n : Nat) (h0 : 0 ≤ k) (hn : k < (n : Int)) :
    findFirst k ((List.range n).map Int.ofNat) = some k.toNat := by
  induction n with
  | zero => exact absurd hn (by omega)
  | succ n ih =>
    rw [List.range_succ, List.map_append]
    by_cases hk : k < (n : Int)
    · exact findFirst_append_left k _ _ k.toNat (ih hk)
    · have hkn : k = (n : Int) := by omega
      subst hkn
      have hnone : findFirst ((n : Nat) : Int) ((List.range n).map Int.ofNat) = none := by
        rw [findFirst_eq_indexOf, if_neg]
        intro hmem
        obtain ⟨i, hi, hik⟩ := List.mem_map.mp hmem
        rw [List.mem_range] at hi
        have hcast : (i : Int) = (n : Int) := hik
        omega
      rw [findFirst_append_none _ _ _ hnone]
      simp [findFirst]

theorem setKeyIndex_identity (keys : List Int) (n : Nat)
    (hk : ∀ k ∈ keys, 0 ≤ k ∧ k < (n : Int)) :
    (setKeyIndex keys ((List.range n).map Int.ofNat)).map Int.ofNat = keys := by
  induction keys with
  | nil => rfl
  | cons k ks ih =>
    obtain ⟨h0, hn⟩ := hk k (by simp)
    simp only [setKeyIndex, findFirst_range k n h0 hn, List.map_cons]
    rw [ih (fun y hy => hk y (by simp [hy]))]
    congr 1
    simpa using Int.toNat_of_nonneg h0

theorem mapExcept_map {α β γ : Type} (g : β → Except FstError γ) (f : α → β)
    (l : List α) : mapExcept g (l.map f) = mapExcept (fun x => g (f x)) l := by
  induction l with
  | nil => rfl
  | cons x xs ih => simp only [List.map_cons, mapExcept, ih]

theorem exceptBind_ok {β γ : Type} (x : β) (f : β → Except FstError γ) :
    (Except.ok x >>= f) = f x := rfl

/-- Claim C1 (amended): For every well-formed table `T` and every
`compress ∈ {0, 25, 50, 75, 100}`, and any compression primitives
satisfying the `Decompress ∘ Compress = id` contract, reading back the
file written from `T` (full row range, no column selection) yields `T`
up to what `fstRead` surfaces: per-column data equality (including NaN
bit patterns and the NA markers INT_MIN, INT64_MIN, BOOL_2 state 10 and
factor level 0), key column order preserved, string encoding tags
preserved, and annotations preserved for INT_32 and DOUBLE_64 columns;
every other column type reads back with an empty annotation — FACTOR,
BOOL_2, INT_64 and BYTE annotations are written to the file but not
surfaced by `fstRead` (fststore.cpp:885-957), and a CHARACTER annotation
is never even written (fststore.cpp:422). -/
theorem C1_roundtrip (lz4 zstd : Codec) (h4 : CodecOk lz4) (hz : CodecOk zstd)
    (t : FstTable) (compress : Nat)
    (hcomp : compress = 0 ∨ compress = 25 ∨ compress = 50 ∨ compress = 75 ∨
      compress = 100)
    (ht : tableWf t = true) :
    roundTripModel lz4 zstd t compress = .ok (readBack t) := by
  simp only [tableWf, Bool.and_eq_true, decide_eq_true_eq, List.all_eq_true] at ht
  obtain ⟨⟨⟨hrows, hcols⟩, hwf⟩, hkeys⟩ := ht
  have hwrite : fstWriteModel lz4 zstd t compress = .ok
      { nrOfRows := t.nrOfRows
        keyColPos := t.keyColPos
        colMeta := t.cols.map (fun c =>
          ((writeColumn lz4 zstd compress c).1, c.attrib, c.scale))
        payloads := t.cols.map (fun c => (writeColumn lz4 zstd compress c).2) } := by
    rw [fstWriteModel, if_neg (by omega), if_neg (by omega)]
  rw [roundTripModel, hwrite, exceptBind_ok]
  rw [fstReadModel, resolveRowRange_full t.nrOfRows hrows, exceptBind_ok]
  rw [List.zip_map', mapExcept_map]
  rw [mapExcept_ok _ stripCol t.cols (by
    intro c hc
    have hcw := hwf c hc
    show (readColumn lz4 zstd t.nrOfRows (writeColumn lz4 zstd compress c).1
        c.attrib c.scale (writeColumn lz4 zstd compress c).2).map
        (sliceColumn (0 : Int).toNat ((t.nrOfRows : Int)).toNat) = _
    rw [readColumn_writeColumn lz4 zstd h4 hz compress t.nrOfRows c hcw]
    show Except.ok (sliceColumn 0 (t.nrOfRows : Int).toNat (stripCol c)) = _
    rw [Int.toNat_natCast, sliceColumn_full t.nrOfRows c hcw])]
  rw [exceptBind_ok]
  simp only [List.length_map, Int.toNat_natCast]
  rw [setKeyIndex_identity t.keyColPos t.cols.length (by
    intro k hk
    have := hkeys k hk
    simpa using this)]
  rfl

/-- Claim C1 counterexample to the claim as stated: a table with a nonempty
annotation on an INT_64 column does not read back equal to itself — the
annotation reaches the written file (its payload carries the annotation
bytes `[42]`), but `fstRead` passes no annotation to the table for case 11
(fststore.cpp:940-947), so it reads back empty; and a CHARACTER column's
annotation is not even written, since `fstWrite` hands the character codec
no annotation at all (fststore.cpp:422). -/
theorem C1_counterexample :
    roundTripModel idCodec idCodec tInt64Annot 0 =
      .ok { nrOfRows := 1, keyColPos := [],
            cols := [⟨.int64 [5], [], 18, 0⟩] } ∧
    roundTripModel idCodec idCodec tInt64Annot 0 ≠ .ok tInt64Annot ∧
    (fstWriteModel idCodec idCodec tInt64Annot 0).map
      (fun f => f.payloads.map payloadAnn) = .ok [[42]] ∧
    payloadAnn (writeColumn idCodec idCodec 0 ⟨.chr 1 [[104]], [42], 2, 0⟩).2
      = [] := by
  refine ⟨by decide, by decide, by decide, by decide⟩

/-- Claim C1 witness: the amended round trip applied at an explicit
well-formed table exercising every column type, the NA markers, a NaN bit
pattern, keys and an INT_32 annotation, with compression 25 and identity
compression primitives (on this table the read-back equals the table
itself, since only its INT_32 column carries an annotation). -/
theorem C1_witness :
    tableWf tSample = true ∧ readBack tSample = tSample ∧
    roundTripModel idCodec idCodec tSample 25 = .ok (readBack tSample) :=
  ⟨by decide, by decide,
    C1_roundtrip idCodec idCodec (fun bs => rfl) (fun bs => rfl) tSample 25
      (by norm_num) (by decide)⟩

/-- Claim C2: the key remap iterates the on-disk keys in order; for each key
it appends the first selection index holding that key, and at the first
key absent from the selection it stops, emitting nothing further (the
longest surviving prefix); on `keyColPos = [0,2]`, `colIndex = [2,0,1]`
the result is `[1,0]`. -/
theorem C2_key_remap :
    (∀ keys cols : List Int, setKeyIndex keys cols = keyRemapSpec keys cols) ∧
    setKeyIndex [0, 2] [2, 0, 1] = [1, 0] :=
  ⟨setKeyIndex_eq_keyRemapSpec, by decide⟩

/-- Claim C3 (the code at the failing input): `fstWrite` sets
`nrOfChunkSlots = 4` and populates exactly slot 0 of `chunkPos` (the chunk
position) and `chunkRows` (`nrOfRows`), but never zeroes slots 1..3 of
either array: the written record keeps whatever the freshly allocated
heap buffer held there (here bytes 0xAB = 171), contradicting the claimed
zero slots. -/
theorem C3_chunk_slots :
    (fstWriteChunkIndex 3 hotGarbageBuffer 10 1000).nrOfChunkSlots = 4 ∧
    (fstWriteChunkIndex 3 hotGarbageBuffer 10 1000).chunkPos =
      [1000, 171, 171, 171] ∧
    (fstWriteChunkIndex 3 hotGarbageBuffer 10 1000).chunkRows =
      [10, 171, 171, 171] ∧
    (fstWriteChunkIndex 3 hotGarbageBuffer 10 1000).chunkPos.getD 1 0 ≠ 0 := by
  decide

/-- Claim C4 counterexample to the claim as stated: a table header whose
FST_VERSION_MAX field (9) exceeds the reader version (1) but whose header
hash does not match is rejected as `NonFstFile`, not `UpdateRequired` —
the hash check precedes the version gate (fststore.cpp:166-179). -/
theorem C4_counterexample :
    readLEField c4BadFile 24 4 = 9 ∧ 1 < 9 ∧
    ReadHeader sumHash 1 c4BadFile = .error .nonFstFile := by
  decide

/-- Claim C4 (amended): when the table-header hash validates, a file whose
FST_VERSION_MAX exceeds the reader's compiled FST_VERSION fails with
`UpdateRequired` before any other validation; the only check that
precedes the version gate is the table-header hash itself (which fails
with `NonFstFile` instead). Both read entry points share this
`ReadHeader` prefix. -/
theorem C4_version_gate (xxh64 : List Nat → Nat) (fstVersion : Nat)
    (fileBytes : List Nat) (hlen : TABLE_META_SIZE ≤ fileBytes.length)
    (hhash : xxh64 ((fileBytes.take TABLE_META_SIZE).drop 8) =
      readLEField (fileBytes.take TABLE_META_SIZE) 0 8)
    (hver : fstVersion < readLEField (fileBytes.take TABLE_META_SIZE) 24 4) :
    ReadHeader xxh64 fstVersion fileBytes = .error .updateRequired := by
  simp only [ReadHeader]
  rw [if_neg (by omega), if_neg (by simp [hhash]), if_pos hver]

/-- Claim C4 witness: the version gate at an explicit 44-byte header whose
hash field matches and whose FST_VERSION_MAX (9) exceeds reader version 1. -/
theorem C4_witness : ReadHeader sumHash 1 c4NewerFile = .error .updateRequired :=
  C4_version_gate sumHash 1 c4NewerFile (by decide) (by decide) (by decide)

/-- Claim C5 counterexample to the claim as stated: reading a stored
three-row table with `startRow = 1, endRow = 1` succeeds and returns the
first row — it does not fail with `BadRange` (the guard `endRow ≤
firstRow` is `1 ≤ 0`, false; fststore.cpp:849-863). -/
theorem C5_counterexample :
    (fstWriteModel idCodec idCodec tRows 0 >>= fun f =>
      fstReadModel idCodec idCodec f 1 1) =
      .ok { nrOfRows := 1, keyColPos := [],
            cols := [⟨.int32 [10], [], 5, 0⟩] } ∧
    (fstWriteModel idCodec idCodec tRows 0 >>= fun f =>
      fstReadModel idCodec idCodec f 1 1) ≠ .error .badRange := by
  exact ⟨by decide, by decide⟩

/-- Claim C5 (amended): for every stored table (`nrOfRows ≥ 1`), a read with
`startRow = 1, endRow = 1` does not fail with `BadRange`: the row range
resolves to `firstRow = 0`, `length = 1` (the first row). `BadRange`
requires `endRow ≠ −1` and `endRow ≤ startRow − 1`. -/
theorem C5_single_row (nrOfRows : Nat) (h : 1 ≤ nrOfRows) :
    resolveRowRange 1 1 nrOfRows = .ok (0, 1) := by
  simp only [resolveRowRange]
  rw [if_neg (by omega), if_pos (by decide), if_neg (by decide)]
  norm_num
  omega

/-- Claim C5 witness: the amended statement at a concrete three-row table. -/
theorem C5_witness : resolveRowRange 1 1 3 = .ok (0, 1) :=
  C5_single_row 3 (by decide)

/-- Claim C6: row-range resolution with 1-based inclusive `startRow` and
`firstRow = startRow − 1`: `NegativeRow` when `firstRow < 0`;
`RowOutOfRange` when `firstRow ≥ nrOfRows`; with explicit `endRow ≠ −1`,
`BadRange` when `endRow ≤ firstRow`, otherwise
`length = min(endRow − firstRow, nrOfRows − firstRow)`; with
`endRow = −1`, `length = nrOfRows − firstRow`. -/
theorem C6_row_range (startRow endRow : Int) (nrOfRows : Nat) :
    (startRow - 1 < 0 →
      resolveRowRange startRow endRow nrOfRows = .error .negativeRow)
  ∧ ((nrOfRows : Int) ≤ startRow - 1 →
      resolveRowRange startRow endRow nrOfRows = .error .rowOutOfRange)
  ∧ (0 ≤ startRow - 1 → startRow - 1 < (nrOfRows : Int) → endRow ≠ -1 →
      endRow ≤ startRow - 1 →
      resolveRowRange startRow endRow nrOfRows = .error .badRange)
  ∧ (0 ≤ startRow - 1 → startRow - 1 < (nrOfRows : Int) → endRow ≠ -1 →
      startRow - 1 < endRow →
      resolveRowRange startRow endRow nrOfRows =
        .ok (startRow - 1,
          min (endRow - (startRow - 1)) ((nrOfRows : Int) - (startRow - 1))))
  ∧ (0 ≤ startRow - 1 → startRow - 1 < (nrOfRows : Int) → endRow = -1 →
      resolveRowRange startRow endRow nrOfRows =
        .ok (startRow - 1, (nrOfRows : Int) - (startRow - 1))) := by
  simp only [resolveRowRange]
  refine ⟨fun h1 => ?_, fun h2 => ?_, fun h1 h2 h3 h4 => ?_,
    fun h1 h2 h3 h4 => ?_, fun h1 h2 h3 => ?_⟩
  · rw [if_pos (Or.inr h1), if_pos h1]
  · rw [if_pos (Or.inl (by omega)), if_neg (by omega)]
  · rw [if_neg (by omega), if_pos h3, if_pos h4]
  · rw [if_neg (by omega), if_pos h3, if_neg (by omega)]
  · rw [if_neg (by omega), if_neg (by omega)]

/-- Claim C6 witness: each branch of the row-range resolution at concrete
inputs. -/
theorem C6_witness :
    resolveRowRange 0 (-1) 5 = .error .negativeRow ∧
    resolveRowRange 7 (-1) 5 = .error .rowOutOfRange ∧
    resolveRowRange 2 1 5 = .error .badRange ∧
    resolveRowRange 2 4 5 = .ok (1, 3) ∧
    resolveRowRange 2 (-1) 5 = .ok (1, 4) := by
  refine ⟨(C6_row_range 0 (-1) 5).1 (by decide),
    (C6_row_range 7 (-1) 5).2.1 (by decide),
    (C6_row_range 2 1 5).2.2.1 (by decide) (by decide) (by decide) (by decide),
    ?_, ?_⟩
  · have h := (C6_row_range 2 4 5).2.2.2.1 (by decide) (by decide) (by decide)
      (by decide)
    simpa using h
  · have h := (C6_row_range 2 (-1) 5).2.2.2.2 (by decide) (by decide) rfl
    simpa using h

theorem linearCount_eq (pct : Nat) (hp : pct ≤ 100) (n : Nat) :
    linearCount pct n = n * pct / 100 := by
  induction n with
  | zero => simp [linearCount]
  | succ n ih =>
    rw [linearCount, List.range_succ, List.filter_append, List.length_append,
      ← linearCount, ih]
    have hsingle : (List.filter (fun i => linearCompressedAt pct i) [n]).length =
        if (n + 1) * pct / 100 ≠ n * pct / 100 then 1 else 0 := by
      by_cases h : (n + 1) * pct / 100 ≠ n * pct / 100
      · simp [linearCompressedAt, h]
      · simp [linearCompressedAt, h]
    rw [hsingle]
    have h1 : n * pct / 100 ≤ (n + 1) * pct / 100 :=
      Nat.div_le_div_right (Nat.mul_le_mul_right pct (by omega))
    have h2 : (n + 1) * pct / 100 ≤ n * pct / 100 + 1 := by
      have hkey : (n + 1) * pct = n * pct + pct := by ring
      calc (n + 1) * pct / 100 = (n * pct + pct) / 100 := by rw [hkey]
        _ ≤ (n * pct + 100) / 100 := Nat.div_le_div_right (by omega)
        _ = n * pct / 100 + 1 := Nat.add_div_right _ (by norm_num)
    by_cases h : (n + 1) * pct / 100 ≠ n * pct / 100
    · rw [if_pos h]
      omega
    · rw [if_neg h]
      omega

/-- Claim C7: the DOUBLE_64 write dispatch (`fdsWriteRealVec_v9`):
compression 0 writes every block verbatim with algorithm identifier NONE;
1 ≤ c ≤ 50 selects the linear-mix stream compressor with LZ4 at level 2c
and percent parameter 2c, choosing compressed blocks deterministically by
block index with fraction 2c/100 = c/50; 51 ≤ c ≤ 100 selects the
composite stream compressor, LZ4 level 100 on every block plus ZSTD level
20 on the deterministic block-index-driven fraction 2(c−50)/100. -/
theorem C7_double_codec (c : Nat) :
    (c = 0 → fdsWriteRealVec_v9_strategy c = .uncompressed ∧
      ∀ (lz4 zstd : Codec) (i : Nat) (raw : List Nat),
        (compressBlock lz4 zstd (strategyDecision .uncompressed i) raw).algo1 =
          .NONE ∧
        (compressBlock lz4 zstd (strategyDecision .uncompressed i) raw).payload =
          raw)
  ∧ (1 ≤ c → c ≤ 50 →
      fdsWriteRealVec_v9_strategy c = .linear .LZ4 (2 * c) (2 * c) ∧
      (∀ i, strategyDecision (.linear .LZ4 (2 * c) (2 * c)) i =
        if linearCompressedAt (2 * c) i then ⟨.LZ4, 2 * c, none⟩
        else ⟨.NONE, 0, none⟩) ∧
      (∀ n, linearCount (2 * c) n = n * (2 * c) / 100) ∧
      ((2 * c : ℚ) / 100 = (c : ℚ) / 50))
  ∧ (51 ≤ c → c ≤ 100 →
      fdsWriteRealVec_v9_strategy c = .composite .LZ4 100 .ZSTD 20 (2 * (c - 50)) ∧
      (∀ i, strategyDecision (.composite .LZ4 100 .ZSTD 20 (2 * (c - 50))) i =
        ⟨.LZ4, 100, if linearCompressedAt (2 * (c - 50)) i
          then some (.ZSTD, 20) else none⟩) ∧
      (∀ n, linearCount (2 * (c - 50)) n = n * (2 * (c - 50)) / 100)) := by
  refine ⟨fun h0 => ?_, fun hlo hhi => ?_, fun hlo hhi => ?_⟩
  · subst h0
    exact ⟨rfl, fun lz4 zstd i raw => ⟨rfl, rfl⟩⟩
  · refine ⟨?_, fun i => rfl, fun n => linearCount_eq (2 * c) (by omega) n, ?_⟩
    · rw [fdsWriteRealVec_v9_strategy, if_neg (by omega), if_pos hhi]
    · field_simp
      ring
  · refine ⟨?_, fun i => rfl,
      fun n => linearCount_eq (2 * (c - 50)) (by omega) n⟩
    rw [fdsWriteRealVec_v9_strategy, if_neg (by omega), if_neg (by omega)]

/-- Claim C7 witness: the three compression regimes at concrete settings
25, 75 and 0, with the block count of the 50 percent mix over ten blocks. -/
theorem C7_witness :
    fdsWriteRealVec_v9_strategy 25 = .linear .LZ4 50 50 ∧
    linearCount 50 10 = 5 ∧
    fdsWriteRealVec_v9_strategy 75 = .composite .LZ4 100 .ZSTD 20 50 ∧
    (compressBlock idCodec idCodec (strategyDecision .uncompressed 0) [7]).payload
      = [7] := by
  refine ⟨((C7_double_codec 25).2.1 (by norm_num) (by norm_num)).1, ?_,
    ((C7_double_codec 75).2.2 (by norm_num) (by norm_num)).1,
    (((C7_double_codec 0).1 rfl).2 idCodec idCodec 0 [7]).2⟩
  have h := ((C7_double_codec 25).2.1 (by norm_num) (by norm_num)).2.2.1 10
  simpa using h

/-- Claim C8: for every written file, `chunkPos = positionData[0] −
8·nrOfCols − DATA_INDEX_SIZE`; the chunk-index record is rewritten at
file offset `chunkPos − CHUNK_INDEX_SIZE` (a seek followed by a write of
the whole chunk-index buffer), and that offset is exactly where the
chunk-index placeholder was first written, `CHUNK_INDEX_SIZE +
DATA_INDEX_SIZE + 8·nrOfCols` bytes before the first column's payload. -/
theorem C8_chunk_index_position (nrOfCols nrOfRows keyLength colNamesSize : Nat)
    (colSizes : List Nat) (hc : 1 ≤ nrOfCols) (hr : 1 ≤ nrOfRows)
    (hlen : colSizes.length = nrOfCols) :
    (fstWriteRun nrOfCols nrOfRows keyLength colNamesSize colSizes).chunkPos =
      (fstWriteRun nrOfCols nrOfRows keyLength colNamesSize
        colSizes).positionData.getD 0 0 - 8 * nrOfCols - DATA_INDEX_SIZE ∧
    (fstWriteRun nrOfCols nrOfRows keyLength colNamesSize colSizes).chunkPos -
        CHUNK_INDEX_SIZE =
      (fstWriteRun nrOfCols nrOfRows keyLength colNamesSize
        colSizes).chunkIndexPos ∧
    (fstWriteRun nrOfCols nrOfRows keyLength colNamesSize
        colSizes).positionData.getD 0 0 =
      (fstWriteRun nrOfCols nrOfRows keyLength colNamesSize
        colSizes).chunkIndexPos + CHUNK_INDEX_SIZE + DATA_INDEX_SIZE +
        8 * nrOfCols ∧
    FileOp.fseek
        ((fstWriteRun nrOfCols nrOfRows keyLength colNamesSize
          colSizes).chunkPos - CHUNK_INDEX_SIZE) ∈
      (fstWriteRun nrOfCols nrOfRows keyLength colNamesSize colSizes).ops ∧
    FileOp.fwrite
        ((fstWriteRun nrOfCols nrOfRows keyLength colNamesSize
          colSizes).chunkPos - CHUNK_INDEX_SIZE)
        (CHUNK_INDEX_SIZE + DATA_INDEX_SIZE + 8 * nrOfCols) ∈
      (fstWriteRun nrOfCols nrOfRows keyLength colNamesSize colSizes).ops := by
  cases colSizes with
  | nil =>
    exfalso
    simp at hlen
    omega
  | cons s ss =>
    simp only [fstWriteRun, if_neg (show ¬ nrOfCols = 0 by omega),
      if_neg (show ¬ nrOfRows = 0 by omega), offsets, List.getD_cons_zero]
    refine ⟨trivial, ?_, ?_, ?_, ?_⟩
    · simp only [CHUNK_INDEX_SIZE, DATA_INDEX_SIZE]
      omega
    · simp only [CHUNK_INDEX_SIZE, DATA_INDEX_SIZE]
      omega
    · simp
    · simp

/-- Claim C8 witness: the chunk-index offsets at a concrete two-column
write with payload sizes 4 and 8 and a 20-byte column-names payload. -/
theorem C8_witness :
    (fstWriteRun 2 3 0 20 [4, 8]).chunkPos - CHUNK_INDEX_SIZE =
      (fstWriteRun 2 3 0 20 [4, 8]).chunkIndexPos ∧
    (fstWriteRun 2 3 0 20 [4, 8]).positionData.getD 0 0 =
      (fstWriteRun 2 3 0 20 [4, 8]).chunkIndexPos + CHUNK_INDEX_SIZE +
        DATA_INDEX_SIZE + 8 * 2 :=
  ⟨(C8_chunk_index_position 2 3 0 20 [4, 8] (by decide) (by decide)
      (by decide)).2.1,
   (C8_chunk_index_position 2 3 0 20 [4, 8] (by decide) (by decide)
      (by decide)).2.2.1⟩

/-- Claim C10: with `nrOfCols = 0` the write fails with `EmptyTable`, and
with `nrOfCols ≠ 0` but `nrOfRows = 0` it fails with `NoData`; in both
cases the file-operation trace is empty — in particular the output file
is never opened, so no file is created or modified; and every failing
write run has performed no file operation at all. -/
theorem C10_guards_before_open (nrOfCols nrOfRows keyLength colNamesSize : Nat)
    (colSizes : List Nat) :
    (nrOfCols = 0 →
      (fstWriteRun nrOfCols nrOfRows keyLength colNamesSize colSizes).err =
        some .emptyTable ∧
      (fstWriteRun nrOfCols nrOfRows keyLength colNamesSize colSizes).ops = [])
  ∧ (nrOfCols ≠ 0 → nrOfRows = 0 →
      (fstWriteRun nrOfCols nrOfRows keyLength colNamesSize colSizes).err =
        some .noData ∧
      (fstWriteRun nrOfCols nrOfRows keyLength colNamesSize colSizes).ops = [])
  ∧ (∀ e, (fstWriteRun nrOfCols nrOfRows keyLength colNamesSize colSizes).err =
        some e →
      FileOp.openW ∉
        (fstWriteRun nrOfCols nrOfRows keyLength colNamesSize colSizes).ops) := by
  refine ⟨fun h => ?_, fun h h2 => ?_, fun e he => ?_⟩
  · simp [fstWriteRun, h]
  · simp [fstWriteRun, h, h2]
  · by_cases h : nrOfCols = 0
    · simp only [fstWriteRun, if_pos h]
      simp
    · by_cases h2 : nrOfRows = 0
      · simp only [fstWriteRun, if_neg h, if_pos h2]
        simp
      · simp only [fstWriteRun, if_neg h, if_neg h2] at he
        simp at he

/-- Claim C10 witness: the two guards at concrete write attempts (a
zero-column table, then a two-column zero-row table). -/
theorem C10_witness :
    (fstWriteRun 0 5 0 10 []).err = some .emptyTable ∧
    (fstWriteRun 0 5 0 10 []).ops = [] ∧
    (fstWriteRun 2 0 1 10 [4, 4]).err = some .noData ∧
    (fstWriteRun 2 0 1 10 [4, 4]).ops = [] :=
  ⟨((C10_guards_before_open 0 5 0 10 []).1 rfl).1,
   ((C10_guards_before_open 0 5 0 10 []).1 rfl).2,
   ((C10_guards_before_open 2 0 1 10 [4, 4]).2.1 (by decide) rfl).1,
   ((C10_guards_before_open 2 0 1 10 [4, 4]).2.1 (by decide) rfl).2⟩

theorem findFirst_getD {α : Type} [DecidableEq α] (k : α) (l : List α) (j : Nat)
    (d : α) (h : findFirst k l = some j) :
    l.getD j d = k ∧ ∀ i, i < j → l.getD i d ≠ k := by
  induction l generalizing j with
  | nil => simp [findFirst] at h
  | cons c cs ih =>
    by_cases hc : c = k
    · simp only [findFirst, if_pos hc, Option.some.injEq] at h
      subst h
      exact ⟨hc, fun i hi => by omega⟩
    · simp only [findFirst, if_neg hc] at h
      obtain ⟨j', hj', rfl⟩ := Option.map_eq_some'.mp h
      obtain ⟨hget, hfirst⟩ := ih j' hj'
      refine ⟨by simpa using hget, fun i hi => ?_⟩
      cases i with
      | zero => simpa using hc
      | succ i =>
        intro hEq
        exact hfirst i (by omega) (by simpa using hEq)

theorem findFirst_none_iff {α : Type} [DecidableEq α] (k : α) (l : List α) :
    findFirst k l = none ↔ ¬ k ∈ l := by
  rw [findFirst_eq_indexOf]
  by_cases h : k ∈ l <;> simp [h]

theorem getD_range_map (names : List String) :
    (List.range names.length).map (fun j => names.getD j "") = names := by
  induction names with
  | nil => rfl
  | cons x xs ih =>
    rw [List.length_cons, List.range_succ_eq_map, List.map_cons, List.map_map]
    congr 1

/-- Claim C9: with a null selection all columns are selected in on-disk
order (and the selected names are the on-disk names in order); otherwise
each requested name is resolved by a linear search for the first exact
match over the on-disk names, the read fails with `ColumnNotFound` when
some requested name matches no column, and on success `outSelectedCols`
holds the chosen column names in selection order, each index being the
first on-disk position carrying the requested name. -/
theorem C9_column_selection (names req : List String) :
    (resolveColSelection names none = .ok (List.range names.length) ∧
      selectedColNames names (List.range names.length) = names)
  ∧ ((∃ s ∈ req, ¬ s ∈ names) →
      resolveColSelection names (some req) = .error .columnNotFound)
  ∧ (∀ idxs, resolveColSelection names (some req) = .ok idxs →
      selectedColNames names idxs = req ∧
      idxs.length = req.length ∧
      ∀ i, i < idxs.length →
        names.getD (idxs.getD i 0) "" = req.getD i "" ∧
        ∀ j, j < idxs.getD i 0 → names.getD j "" ≠ req.getD i "") := by
  refine ⟨⟨rfl, getD_range_map names⟩, ?_, ?_⟩
  · intro hmiss
    induction req with
    | nil => simp at hmiss
    | cons s rest ih =>
      simp only [resolveColSelection, mapExcept]
      cases hfind : findFirst s names with
      | none => rfl
      | some j =>
        have hmem : s ∈ names := by
          by_contra hc
          rw [(findFirst_none_iff s names).mpr hc] at hfind
          exact Option.noConfusion hfind
        obtain ⟨s', hs', habs⟩ := hmiss
        rcases List.mem_cons.mp hs' with rfl | hsrest
        · exact absurd hmem habs
        · have := ih ⟨s', hsrest, habs⟩
          simp only [resolveColSelection] at this
          rw [exceptBind_ok]
          rw [this]
          rfl
  · intro idxs hok
    induction req generalizing idxs with
    | nil =>
      simp only [resolveColSelection, mapExcept] at hok
      obtain rfl : idxs = [] := by
        injection hok with h
        exact h.symm
      exact ⟨rfl, rfl, fun i hi => by simp at hi⟩
    | cons s rest ih =>
      simp only [resolveColSelection, mapExcept] at hok
      cases hfind : findFirst s names with
      | none =>
        rw [hfind] at hok
        exact Except.noConfusion hok
      | some j =>
        rw [hfind, exceptBind_ok] at hok
        cases hrest : mapExcept (fun s => match findFirst s names with
            | some j => Except.ok j
            | none => Except.error FstError.columnNotFound) rest with
        | error e =>
          rw [hrest] at hok
          exact Except.noConfusion hok
        | ok ys =>
          rw [hrest, exceptBind_ok] at hok
          obtain rfl : idxs = j :: ys := by
            injection hok with h
            exact h.symm
          have hys := ih ys (by
            simp only [resolveColSelection]
            exact hrest)
          obtain ⟨hgetj, hfirstj⟩ := findFirst_getD s names j "" hfind
          refine ⟨?_, ?_, ?_⟩
          · simp only [selectedColNames, List.map_cons] at hys ⊢
            rw [hgetj, hys.1]
          · simp only [List.length_cons, hys.2.1]
          · intro i hi
            cases i with
            | zero => exact ⟨by simpa using hgetj, by simpa using hfirstj⟩
            | succ i =>
              have := hys.2.2 i (by simpa using hi)
              simpa using this

/-- Claim C9 witness: selection resolution at concrete names: a successful
two-name selection in reversed order, a missing name, and the null
selection. -/
theorem C9_witness :
    resolveColSelection ["a", "bb", "c"] (some ["c", "a"]) = .ok [2, 0] ∧
    selectedColNames ["a", "bb", "c"] [2, 0] = ["c", "a"] ∧
    resolveColSelection ["a", "bb", "c"] (some ["zz"]) =
      .error .columnNotFound ∧
    resolveColSelection ["a", "bb", "c"] none = .ok [0, 1, 2] ∧
    selectedColNames ["a", "bb", "c"] [0, 1, 2] = ["a", "bb", "c"] := by
  have hok : resolveColSelection ["a", "bb", "c"] (some ["c", "a"]) =
      .ok [2, 0] := by decide
  refine ⟨hok,
    ((C9_column_selection ["a", "bb", "c"] ["c", "a"]).2.2 [2, 0] hok).1,
    (C9_column_selection ["a", "bb", "c"] ["zz"]).2.1
      ⟨"zz", by decide, by decide⟩, ?_, ?_⟩
  · have h := (C9_column_selection ["a", "bb", "c"] []).1.1
    simpa using h
  · have h := (C9_column_selection ["a", "bb", "c"] []).1.2
    simpa using h
